import Mathlib

/-!
Verification of the `multimodal_perceiver/train.py` training loop.

The Python module is orchestration glue: a chunked-subsampling generator
(`generate_subsampling`), per-epoch train/validation steps, two test
evaluation variants, and a `train` orchestrator with early stopping.
We embed each function shallowly:

* machine floats carrying losses and F1 scores become `ℚ`;
* `random.randint(a, b)` becomes a function of an explicit seed,
  `a + seed % (b - a + 1)`, uniform over the inclusive range `[a, b]`;
* tensors of class scores become `List (List ℚ)` (rows of per-class scores),
  `torch.argmax(·, dim=1)` becomes a row-wise `argmaxIdx`;
* `sklearn.metrics.f1_score(·, ·, average='weighted')` is embedded as
  `weightedF1` below;
* the opaque model / optimizer / device calls are abstracted by explicit
  parameters (`StepEnv`), and the side effects the spec talks about
  (optimizer calls, wandb logging, metric appends) become explicit events
  in returned traces.
-/

namespace MMERC

/-! ## Subsampling generator (`generate_subsampling`, train.py lines 11-24) -/

/-- Embedding of Python `random.randint(a, b)`: draws from the inclusive
range `[a, b]`, here as a pure function of an explicit seed. -/
def randint (a b seed : ℕ) : ℕ := a + seed % (b - a + 1)

/-- Embedding of `torch.arange(lo, hi)`: the list `[lo, lo+1, ..., hi-1]`. -/
def arange (lo hi : ℕ) : List ℕ := List.range' lo (hi - lo)

/-- Embedding of `np.prod`: product of a list of dimension sizes. -/
def prodList (l : List ℕ) : ℕ := l.foldl (· * ·) 1

/-- Result type of `generate_subsampling`: the dict with keys
`image`, `audio`, `label`; Python's `None` for `label` becomes `none`. -/
structure Subsampling where
  image : List ℕ
  audio : List ℕ
  label : Option (List ℕ)
deriving DecidableEq

/-- Embedding of `generate_subsampling(nchunks, samples_per_patch, im_shape,
au_shape)` (train.py lines 11-24).  `chunk_idx = random.randint(0, nchunks)`;
`image_chunk_size = np.prod(im_shape[1:-1]) // nchunks`;
`audio_chunk_size = au_shape[1] // samples_per_patch // nchunks`; the result
maps `image` and `audio` to `torch.arange(chunk_size * idx,
chunk_size * (idx + 1))` and `label` to `None`.  Shapes are lists of
dimension sizes; `im_shape[1:-1]` is `(im_shape.drop 1).dropLast` and
`au_shape[1]` is `au_shape.getD 1 0`. -/
def generate_subsampling (nchunks samples_per_patch : ℕ)
    (im_shape au_shape : List ℕ) (seed : ℕ) : Subsampling :=
  let chunk_idx := randint 0 nchunks seed
  let image_chunk_size := prodList ((im_shape.drop 1).dropLast) / nchunks
  let audio_chunk_size := au_shape.getD 1 0 / samples_per_patch / nchunks
  { image := arange (image_chunk_size * chunk_idx)
      (image_chunk_size * (chunk_idx + 1)),
    audio := arange (audio_chunk_size * chunk_idx)
      (audio_chunk_size * (chunk_idx + 1)),
    label := none }

/-- The set of positions of the chunk with index `idx` when each chunk has
`cs` positions: the elements of the `arange` produced for that chunk. -/
def chunkFinset (cs idx : ℕ) : Finset ℕ := (arange (cs * idx) (cs * (idx + 1))).toFinset

theorem mem_arange (lo hi x : ℕ) : x ∈ arange lo hi ↔ lo ≤ x ∧ x < hi := by
  unfold arange
  rw [List.mem_range']
  constructor
  · rintro ⟨i, hi', rfl⟩
    omega
  · rintro ⟨h1, h2⟩
    exact ⟨x - lo, by omega, by omega⟩

theorem mem_chunkFinset (cs idx x : ℕ) :
    x ∈ chunkFinset cs idx ↔ cs * idx ≤ x ∧ x < cs * (idx + 1) := by
  unfold chunkFinset
  rw [List.mem_toFinset, mem_arange]

/-- C2: for every `nchunks ≥ 1`, the chunk index drawn by
`generate_subsampling` via `random.randint(0, nchunks)` always lies in the
inclusive range `[0, nchunks]`, every value of that range (including the
out-of-range boundary value `nchunks` itself) is attained for some draw,
and `generate_subsampling` uses exactly that index for its chunk starts. -/
theorem chunk_idx_range (nchunks : ℕ) (h : 1 ≤ nchunks) :
    (∀ seed, randint 0 nchunks seed ≤ nchunks) ∧
    (∀ v, v ≤ nchunks → ∃ seed, randint 0 nchunks seed = v) ∧
    (∀ spp ims aus seed,
      (generate_subsampling nchunks spp ims aus seed).image =
        arange (prodList ((ims.drop 1).dropLast) / nchunks * randint 0 nchunks seed)
          (prodList ((ims.drop 1).dropLast) / nchunks * (randint 0 nchunks seed + 1))) := by
  refine ⟨?_, ?_, ?_⟩
  · intro seed
    unfold randint
    have : seed % (nchunks - 0 + 1) < nchunks - 0 + 1 := Nat.mod_lt _ (by omega)
    omega
  · intro v hv
    refine ⟨v, ?_⟩
    unfold randint
    simp only [Nat.zero_add, Nat.sub_zero]
    exact Nat.mod_eq_of_lt (by omega)
  · intro spp ims aus seed
    rfl

/-- Witness for `chunk_idx_range` at `nchunks = 3`: the boundary value 3 is
attained and every draw is at most 3. -/
theorem chunk_idx_range_witness :
    (∀ seed, randint 0 3 seed ≤ 3) ∧
    (∀ v, v ≤ 3 → ∃ seed, randint 0 3 seed = v) ∧
    (∀ spp ims aus seed,
      (generate_subsampling 3 spp ims aus seed).image =
        arange (prodList ((ims.drop 1).dropLast) / 3 * randint 0 3 seed)
          (prodList ((ims.drop 1).dropLast) / 3 * (randint 0 3 seed + 1))) :=
  chunk_idx_range 3 (by decide)

/-- C3: `generate_subsampling` maps `image` to exactly the index range
`[image_chunk_size * idx, image_chunk_size * (idx+1))` where
`image_chunk_size` is the product of the image shape's non-batch,
non-channel dimensions integer-divided by `nchunks`; maps `audio` to the
analogous range with `audio_chunk_size = au_shape[1] // samples_per_patch
// nchunks`; and maps `label` to the no-subsampling marker `none`.  It is a
pure function of its inputs and the seed. -/
theorem generate_subsampling_spec (nchunks spp : ℕ) (ims aus : List ℕ) (seed : ℕ) :
    (let idx := randint 0 nchunks seed
     let ics := prodList ((ims.drop 1).dropLast) / nchunks
     let acs := aus.getD 1 0 / spp / nchunks
     (generate_subsampling nchunks spp ims aus seed).image =
        arange (ics * idx) (ics * (idx + 1)) ∧
     (∀ x, x ∈ (generate_subsampling nchunks spp ims aus seed).image ↔
        ics * idx ≤ x ∧ x < ics * (idx + 1)) ∧
     (generate_subsampling nchunks spp ims aus seed).audio =
        arange (acs * idx) (acs * (idx + 1)) ∧
     (∀ x, x ∈ (generate_subsampling nchunks spp ims aus seed).audio ↔
        acs * idx ≤ x ∧ x < acs * (idx + 1)) ∧
     (generate_subsampling nchunks spp ims aus seed).label = none) := by
  refine ⟨rfl, ?_, rfl, ?_, rfl⟩
  · intro x
    exact mem_arange _ _ x
  · intro x
    exact mem_arange _ _ x

/-- C4: for a fixed chunk size `cs` and `nchunks ≥ 1`, the chunk position
sets produced for distinct chunk indices are pairwise disjoint, and those of
indices `0 .. nchunks - 1` together partition `[0, cs * nchunks)`. -/
theorem chunk_ranges_partition (cs nchunks : ℕ) (_h : 1 ≤ nchunks) :
    (∀ i j, i ≠ j → Disjoint (chunkFinset cs i) (chunkFinset cs j)) ∧
    (Finset.range nchunks).biUnion (chunkFinset cs) = Finset.range (cs * nchunks) := by
  constructor
  · intro i j hij
    rw [Finset.disjoint_left]
    intro x hxi hxj
    rw [mem_chunkFinset] at hxi hxj
    rcases Nat.lt_or_ge i j with hlt | hge
    · have : cs * (i + 1) ≤ cs * j := Nat.mul_le_mul_left cs (by omega)
      omega
    · have hji : j < i := by omega
      have : cs * (j + 1) ≤ cs * i := Nat.mul_le_mul_left cs (by omega)
      omega
  · ext x
    simp only [Finset.mem_biUnion, Finset.mem_range, mem_chunkFinset]
    constructor
    · rintro ⟨i, hi, hx⟩
      have : cs * (i + 1) ≤ cs * nchunks := Nat.mul_le_mul_left cs (by omega)
      omega
    · intro hx
      have hcs : 0 < cs := by
        rcases Nat.eq_zero_or_pos cs with h0 | h0
        · subst h0
          simp at hx
        · exact h0
      have hdm := Nat.div_add_mod x cs
      have hmlt := Nat.mod_lt x hcs
      have hexp : cs * (x / cs + 1) = cs * (x / cs) + cs := by ring
      refine ⟨x / cs, ?_, ?_, ?_⟩
      · have hlt : x < nchunks * cs := by
          calc x < cs * nchunks := hx
            _ = nchunks * cs := Nat.mul_comm _ _
        exact (Nat.div_lt_iff_lt_mul hcs).mpr hlt
      · omega
      · omega

/-- Witness for `chunk_ranges_partition` at `cs = 2`, `nchunks = 3`. -/
theorem chunk_ranges_partition_witness :
    Disjoint (chunkFinset 2 0) (chunkFinset 2 1) ∧
    (Finset.range 3).biUnion (chunkFinset 2) = Finset.range 6 :=
  ⟨(chunk_ranges_partition 2 3 (by decide)).1 0 1 (by decide),
   (chunk_ranges_partition 2 3 (by decide)).2⟩

/-! ## Weighted F1 (`sklearn.metrics.f1_score(·, ·, average='weighted')`)
and row-wise argmax (`torch.argmax(·, dim=1)`) -/

/-- Embedding of `torch.argmax` on one row of scores: the index of the first
occurrence of the maximum (0 on an empty row). -/
def argmaxIdx (l : List ℚ) : ℕ :=
  (List.range l.length).foldl (fun best i => if l.getD best 0 < l.getD i 0 then i else best) 0

/-- Number of occurrences of label `c` in a label list. -/
def countEq (l : List ℕ) (c : ℕ) : ℕ := (l.filter (fun x => x == c)).length

/-- True positives for class `c`: positions where gold and prediction are both `c`. -/
def tpCount (gold pred : List ℕ) (c : ℕ) : ℕ :=
  ((gold.zip pred).filter (fun p => p.1 == c && p.2 == c)).length

/-- Per-class F1 in the form sklearn computes it:
`2 * tp / (predicted_positives + support)`, and 0 when that denominator is 0
(sklearn's zero-division convention for precision, recall and F1). -/
def f1Class (gold pred : List ℕ) (c : ℕ) : ℚ :=
  let denom := countEq pred c + countEq gold c
  if denom = 0 then 0 else 2 * (tpCount gold pred c : ℚ) / (denom : ℚ)

/-- The label set sklearn uses by default: all labels present in either list. -/
def labelSet (gold pred : List ℕ) : Finset ℕ := (gold ++ pred).toFinset

/-- Embedding of `f1_score(gold, pred, average='weighted')`: per-class F1
weighted by support (occurrences in `gold`), divided by the total support
`gold.length`; 0 on empty input (sklearn's zero-division convention). -/
def weightedF1 (gold pred : List ℕ) : ℚ :=
  if gold.length = 0 then 0
  else (∑ c ∈ labelSet gold pred, (countEq gold c : ℚ) * f1Class gold pred c) / (gold.length : ℚ)

/-! ## Test evaluation (`test_step`, train.py lines 90-107, and
`test_for_eval`, lines 109-126) -/

/-- One test batch, abstracted to what the loop body consumes: the one-hot
label tensor `batch['label']` and the model's output `logits['label']` for
this batch under the drawn subsampling (the model, device transfer and
subsampling draw are opaque to the loop, so the logits each batch produces
are taken as input data; both test variants see the same ones). -/
structure TestBatch where
  label : List (List ℚ)
  logits : List (List ℚ)
deriving DecidableEq

/-- Embedding of `test_step`: accumulate `pred.extend(argmax logits)` and
`gold.extend(argmax labels)` over the batches, then return the single
weighted F1 over the full accumulated lists. -/
def test_step (batches : List TestBatch) : ℚ :=
  let gp := batches.foldl
    (fun (acc : List ℕ × List ℕ) batch =>
      (acc.1 ++ batch.label.map argmaxIdx, acc.2 ++ batch.logits.map argmaxIdx))
    ([], [])
  weightedF1 gp.1 gp.2

/-- Embedding of `test_for_eval`: the same loop as `test_step`, returning
additionally the accumulated gold and predicted label lists. -/
def test_for_eval (batches : List TestBatch) : ℚ × List ℕ × List ℕ :=
  let gp := batches.foldl
    (fun (acc : List ℕ × List ℕ) batch =>
      (acc.1 ++ batch.label.map argmaxIdx, acc.2 ++ batch.logits.map argmaxIdx))
    ([], [])
  (weightedF1 gp.1 gp.2, gp.1, gp.2)

/-- The concatenation of all per-batch gold label lists. -/
def goldAll (batches : List TestBatch) : List ℕ :=
  (batches.map (fun b => b.label.map argmaxIdx)).flatten

/-- The concatenation of all per-batch predicted label lists. -/
def predAll (batches : List TestBatch) : List ℕ :=
  (batches.map (fun b => b.logits.map argmaxIdx)).flatten

/-- The quantity the spec contrasts test evaluation against: the arithmetic
mean over batches of the per-batch weighted F1 scores. -/
def meanPerBatchF1 (batches : List TestBatch) : ℚ :=
  (batches.map (fun b => weightedF1 (b.label.map argmaxIdx) (b.logits.map argmaxIdx))).sum
    / (batches.length : ℚ)

theorem testFold_append (batches : List TestBatch) (g p : List ℕ) :
    batches.foldl
      (fun (acc : List ℕ × List ℕ) batch =>
        (acc.1 ++ batch.label.map argmaxIdx, acc.2 ++ batch.logits.map argmaxIdx))
      (g, p) = (g ++ goldAll batches, p ++ predAll batches) := by
  induction batches generalizing g p with
  | nil => simp [goldAll, predAll]
  | cons b bs ih =>
    simp only [List.foldl_cons, ih, goldAll, predAll, List.map_cons, List.flatten_cons,
      List.append_assoc]

theorem weightedF1_eval1 : weightedF1 [0, 0, 1] [1, 0, 1] = 2 / 3 := by
  rw [weightedF1, show labelSet [0, 0, 1] [1, 0, 1] = {0, 1} from rfl,
    Finset.sum_insert (by decide), Finset.sum_singleton]
  norm_num [f1Class, countEq, tpCount]

theorem weightedF1_eval2 : weightedF1 [0] [1] = 0 := by
  rw [weightedF1, show labelSet [0] [1] = {0, 1} from rfl,
    Finset.sum_insert (by decide), Finset.sum_singleton]
  norm_num [f1Class, countEq, tpCount]

theorem weightedF1_eval3 : weightedF1 [0, 1] [0, 1] = 1 := by
  rw [weightedF1, show labelSet [0, 1] [0, 1] = {0, 1} from rfl,
    Finset.sum_insert (by decide), Finset.sum_singleton]
  norm_num [f1Class, countEq, tpCount]

/-- A concrete two-batch test input on which the aggregate weighted F1 and
the mean of per-batch weighted F1 scores differ. -/
def exTestBatches : List TestBatch :=
  [⟨[[1, 0]], [[0, 1]]⟩, ⟨[[1, 0], [0, 1]], [[1, 0], [0, 1]]⟩]

/-- C7: `test_step` returns the aggregate weighted F1 computed once over the
full concatenated gold and prediction lists accumulated across all batches,
equal to a directly computed weighted F1 over those lists — and it is not
the arithmetic mean of per-batch F1 scores, which differs on a concrete
two-batch input. -/
theorem test_step_aggregate :
    (∀ batches, test_step batches = weightedF1 (goldAll batches) (predAll batches)) ∧
    test_step exTestBatches ≠ meanPerBatchF1 exTestBatches := by
  constructor
  · intro batches
    unfold test_step
    rw [testFold_append]
    simp
  · have h1 : test_step exTestBatches = 2 / 3 := by
      unfold test_step
      rw [testFold_append]
      simp only [List.nil_append]
      rw [show goldAll exTestBatches = [0, 0, 1] from by decide,
        show predAll exTestBatches = [1, 0, 1] from by decide]
      exact weightedF1_eval1
    have h2 : meanPerBatchF1 exTestBatches = 1 / 2 := by
      unfold meanPerBatchF1 exTestBatches
      simp only [List.map_cons, List.map_nil, List.sum_cons, List.sum_nil, List.length_cons,
        List.length_nil]
      rw [show argmaxIdx [1, 0] = 0 from by decide,
        show argmaxIdx [0, 1] = 1 from by decide]
      rw [weightedF1_eval2, weightedF1_eval3]
      norm_num
    rw [h1, h2]
    norm_num

/-- C8: `test_for_eval` differs from `test_step` only in return shape: on the
same batches it returns exactly the scalar `test_step` returns, together with
the accumulated gold and predicted label lists. -/
theorem test_for_eval_refines_test_step (batches : List TestBatch) :
    test_for_eval batches = (test_step batches, goldAll batches, predAll batches) := by
  unfold test_for_eval test_step
  rw [testFold_append]
  simp

/-! ## Train step (`train_step`, train.py lines 26-57) and validation step
(`val_step`, lines 60-87), instrumented with explicit state and effects -/

/-- Side effects the loop body can perform, recorded as events:
`optimizer.zero_grad()`, `loss.backward()`, `optimizer.step()`, and the
per-batch `wandb.log({"batch train loss": loss.item()})`. -/
inductive StepEv
  | zeroGrad
  | backward
  | optStep
  | batchLog (loss : ℚ)
deriving DecidableEq

/-- Mode the model object is put in at entry: `model.train()` or `model.eval()`. -/
inductive Mode
  | Train
  | Eval
deriving DecidableEq

/-- Abstraction of the opaque callables a step consumes. `π` is the model
parameter state, `σ` the optimizer state, `β` a batch. `forward p b` is the
pure value the body computes from the model output on batch `b` at
parameters `p`: the pair of `loss_fn(y_pred, y).item()` and the per-batch
weighted F1 of `argmax(softmax(y_pred))` against `argmax(y)`.  `optUpdate`
is the combined mutation of `(params, optimizer state)` performed by the
`zero_grad` / `backward` / `step` triple.  `nSamples b` is the number of
samples in batch `b` (the leading tensor dimension), which the loop never
reads. -/
structure StepEnv (π σ β : Type) where
  forward : π → β → ℚ × ℚ
  optUpdate : π → σ → π × σ
  nSamples : β → ℕ

/-- Loop-carried state of a step: the running loss and F1 sums, the model
parameters, the optimizer state, and the emitted events. -/
structure StepAcc (π σ : Type) where
  lossSum : ℚ
  f1Sum : ℚ
  params : π
  optState : σ
  events : List StepEv

/-- What a step returns and leaves behind: the epoch-mean loss and F1
(the two Python return values), the final model/optimizer state, the mode
the model was put in, and the emitted events. -/
structure StepResult (π σ : Type) where
  avgLoss : ℚ
  avgF1 : ℚ
  params : π
  optState : σ
  mode : Mode
  events : List StepEv

/-- Body of the `train_step` loop (train.py lines 36-53): compute loss and
F1 from the forward pass, accumulate both, run `zero_grad` / `backward` /
`step` (mutating params and optimizer state), and log the batch loss. -/
def trainBody {π σ β : Type} (env : StepEnv π σ β) (acc : StepAcc π σ) (b : β) : StepAcc π σ :=
  let lf := env.forward acc.params b
  let ps := env.optUpdate acc.params acc.optState
  ⟨acc.lossSum + lf.1, acc.f1Sum + lf.2, ps.1, ps.2,
    acc.events ++ [StepEv.zeroGrad, StepEv.backward, StepEv.optStep, StepEv.batchLog lf.1]⟩

/-- Embedding of `train_step`: `model.train()`, fold the loop body over the
batches from zero sums, then return the sums divided by `len(dataloader)`. -/
def train_step {π σ β : Type} (env : StepEnv π σ β) (p : π) (s : σ)
    (batches : List β) : StepResult π σ :=
  let r := batches.foldl (trainBody env) ⟨0, 0, p, s, []⟩
  ⟨r.lossSum / (batches.length : ℚ), r.f1Sum / (batches.length : ℚ),
    r.params, r.optState, Mode.Train, r.events⟩

/-- Body of the `val_step` loop (train.py lines 71-83): compute loss and F1
from the forward pass and accumulate them; under `torch.inference_mode()`
there is no gradient, no optimizer call, and no logging, so params,
optimizer state and events are untouched. -/
def valBody {π σ β : Type} (env : StepEnv π σ β) (acc : StepAcc π σ) (b : β) : StepAcc π σ :=
  let lf := env.forward acc.params b
  ⟨acc.lossSum + lf.1, acc.f1Sum + lf.2, acc.params, acc.optState, acc.events⟩

/-- Embedding of `val_step`: `model.eval()`, fold the loop body over the
batches from zero sums, then return the sums divided by `len(dataloader)`. -/
def val_step {π σ β : Type} (env : StepEnv π σ β) (p : π) (s : σ)
    (batches : List β) : StepResult π σ :=
  let r := batches.foldl (valBody env) ⟨0, 0, p, s, []⟩
  ⟨r.lossSum / (batches.length : ℚ), r.f1Sum / (batches.length : ℚ),
    r.params, r.optState, Mode.Eval, r.events⟩

/-- The per-batch `(loss, F1)` values a training pass produces, with the
parameter and optimizer state threaded through the optimizer update. -/
def trainBatchVals {π σ β : Type} (env : StepEnv π σ β) : π → σ → List β → List (ℚ × ℚ)
  | _, _, [] => []
  | p, s, b :: bs =>
    env.forward p b :: trainBatchVals env (env.optUpdate p s).1 (env.optUpdate p s).2 bs

/-- The per-batch `(loss, F1)` values a validation pass produces: the
parameters stay fixed across batches. -/
def valBatchVals {π σ β : Type} (env : StepEnv π σ β) (p : π) (batches : List β) :
    List (ℚ × ℚ) :=
  batches.map (env.forward p)

/-- Arithmetic mean of a list of rationals. -/
def listMean (l : List ℚ) : ℚ := l.sum / (l.length : ℚ)

theorem trainBatchVals_length {π σ β : Type} (env : StepEnv π σ β) (p : π) (s : σ)
    (bs : List β) : (trainBatchVals env p s bs).length = bs.length := by
  induction bs generalizing p s with
  | nil => rfl
  | cons b bs ih => simp [trainBatchVals, ih]

theorem train_foldl {π σ β : Type} (env : StepEnv π σ β) (bs : List β) (acc : StepAcc π σ) :
    (bs.foldl (trainBody env) acc).lossSum =
      acc.lossSum + ((trainBatchVals env acc.params acc.optState bs).map Prod.fst).sum ∧
    (bs.foldl (trainBody env) acc).f1Sum =
      acc.f1Sum + ((trainBatchVals env acc.params acc.optState bs).map Prod.snd).sum := by
  induction bs generalizing acc with
  | nil => simp [trainBatchVals]
  | cons b bs ih =>
    have h := ih (trainBody env acc b)
    refine ⟨?_, ?_⟩
    · rw [List.foldl_cons, h.1]
      simp only [trainBody, trainBatchVals, List.map_cons, List.sum_cons]
      ring
    · rw [List.foldl_cons, h.2]
      simp only [trainBody, trainBatchVals, List.map_cons, List.sum_cons]
      ring

theorem val_foldl {π σ β : Type} (env : StepEnv π σ β) (bs : List β) (acc : StepAcc π σ) :
    bs.foldl (valBody env) acc =
      ⟨acc.lossSum + ((valBatchVals env acc.params bs).map Prod.fst).sum,
       acc.f1Sum + ((valBatchVals env acc.params bs).map Prod.snd).sum,
       acc.params, acc.optState, acc.events⟩ := by
  induction bs generalizing acc with
  | nil => simp [valBatchVals]
  | cons b bs ih =>
    rw [List.foldl_cons, ih (valBody env acc b)]
    simp only [valBody, valBatchVals, List.map_cons, List.sum_cons, StepAcc.mk.injEq]
    refine ⟨by ring, by ring, trivial, trivial, trivial⟩

/-- C5: for a non-empty batch sequence, the loss and F1 returned by
`train_step` and by `val_step` each equal the arithmetic mean of the
per-batch values over the number of batches; the mean is over batches,
ignoring the per-batch sample counts entirely. -/
theorem step_epoch_means {π σ β : Type} (env : StepEnv π σ β) (p : π) (s : σ)
    (bs : List β) (_h : bs ≠ []) :
    (train_step env p s bs).avgLoss = listMean ((trainBatchVals env p s bs).map Prod.fst) ∧
    (train_step env p s bs).avgF1 = listMean ((trainBatchVals env p s bs).map Prod.snd) ∧
    (val_step env p s bs).avgLoss = listMean ((valBatchVals env p bs).map Prod.fst) ∧
    (val_step env p s bs).avgF1 = listMean ((valBatchVals env p bs).map Prod.snd) ∧
    (∀ f : β → ℕ,
      train_step ⟨env.forward, env.optUpdate, f⟩ p s bs = train_step env p s bs ∧
      val_step ⟨env.forward, env.optUpdate, f⟩ p s bs = val_step env p s bs) := by
  have ht := train_foldl env bs ⟨0, 0, p, s, []⟩
  have hv := val_foldl env bs ⟨0, 0, p, s, []⟩
  refine ⟨?_, ?_, ?_, ?_, ?_⟩
  · show (bs.foldl (trainBody env) ⟨0, 0, p, s, []⟩).lossSum / (bs.length : ℚ) = _
    rw [ht.1, listMean, List.length_map, trainBatchVals_length]
    norm_num
  · show (bs.foldl (trainBody env) ⟨0, 0, p, s, []⟩).f1Sum / (bs.length : ℚ) = _
    rw [ht.2, listMean, List.length_map, trainBatchVals_length]
    norm_num
  · show (bs.foldl (valBody env) ⟨0, 0, p, s, []⟩).lossSum / (bs.length : ℚ) = _
    rw [hv, listMean, List.length_map, valBatchVals, List.length_map]
    norm_num
  · show (bs.foldl (valBody env) ⟨0, 0, p, s, []⟩).f1Sum / (bs.length : ℚ) = _
    rw [hv, listMean, List.length_map, valBatchVals, List.length_map]
    norm_num
  · intro f
    exact ⟨rfl, rfl⟩

/-- A concrete environment over `π = σ = β = ℕ` for witnessing the step
theorems: `forward p b = (p + b, 1)` and the optimizer update increments
the parameters. -/
def envW : StepEnv ℕ ℕ ℕ :=
  ⟨fun p b => ((p + b : ℕ), 1), fun p s => (p + 1, s), fun _ => 0⟩

/-- Witness for `step_epoch_means` on a concrete two-batch input. -/
theorem step_epoch_means_witness :
    ([3, 5] : List ℕ) ≠ [] ∧
    (train_step envW 0 0 [3, 5]).avgLoss =
      listMean ((trainBatchVals envW 0 0 [3, 5]).map Prod.fst) :=
  ⟨by decide, (step_epoch_means envW 0 0 [3, 5] (by decide)).1⟩

/-- C9: `val_step` leaves the model parameters and optimizer state
untouched, emits no gradient, optimizer or per-batch-logging events at all,
puts the model in evaluation mode where `train_step` uses training mode,
and — whenever the optimizer update has no effect — computes exactly the
same epoch-mean loss and F1 as `train_step`. -/
theorem val_step_frame {π σ β : Type} (env : StepEnv π σ β) (p : π) (s : σ) (bs : List β) :
    (val_step env p s bs).params = p ∧
    (val_step env p s bs).optState = s ∧
    (val_step env p s bs).events = [] ∧
    (StepEv.zeroGrad ∉ (val_step env p s bs).events ∧
     StepEv.backward ∉ (val_step env p s bs).events ∧
     StepEv.optStep ∉ (val_step env p s bs).events ∧
     ∀ x, StepEv.batchLog x ∉ (val_step env p s bs).events) ∧
    (val_step env p s bs).mode = Mode.Eval ∧
    (train_step env p s bs).mode = Mode.Train ∧
    ((∀ q t, env.optUpdate q t = (q, t)) →
      (val_step env p s bs).avgLoss = (train_step env p s bs).avgLoss ∧
      (val_step env p s bs).avgF1 = (train_step env p s bs).avgF1) := by
  have hv := val_foldl env bs ⟨0, 0, p, s, []⟩
  have hevents : (val_step env p s bs).events = [] := by
    show (bs.foldl (valBody env) ⟨0, 0, p, s, []⟩).events = []
    rw [hv]
  refine ⟨?_, ?_, hevents, ?_, rfl, rfl, ?_⟩
  · show (bs.foldl (valBody env) ⟨0, 0, p, s, []⟩).params = p
    rw [hv]
  · show (bs.foldl (valBody env) ⟨0, 0, p, s, []⟩).optState = s
    rw [hv]
  · rw [hevents]
    exact ⟨List.not_mem_nil _, List.not_mem_nil _, List.not_mem_nil _,
      fun x => List.not_mem_nil _⟩
  · intro hid
    have hsame : ∀ (q : π) (t : σ) (l : List β), trainBatchVals env q t l = valBatchVals env q l := by
      intro q t l
      induction l generalizing q t with
      | nil => rfl
      | cons b l ih => simp [trainBatchVals, valBatchVals, hid, ih, valBatchVals]
    have ht := train_foldl env bs ⟨0, 0, p, s, []⟩
    constructor
    · show (bs.foldl (valBody env) ⟨0, 0, p, s, []⟩).lossSum / (bs.length : ℚ) =
        (bs.foldl (trainBody env) ⟨0, 0, p, s, []⟩).lossSum / (bs.length : ℚ)
      rw [hv, ht.1, hsame]
    · show (bs.foldl (valBody env) ⟨0, 0, p, s, []⟩).f1Sum / (bs.length : ℚ) =
        (bs.foldl (trainBody env) ⟨0, 0, p, s, []⟩).f1Sum / (bs.length : ℚ)
      rw [hv, ht.2, hsame]

/-- An environment whose optimizer update has no effect, for witnessing
`val_step_frame`. -/
def envId : StepEnv ℕ ℕ ℕ :=
  ⟨fun p b => ((p + b : ℕ), 1), fun p s => (p, s), fun _ => 0⟩

/-- Witness for `val_step_frame` on a concrete input with an effect-free
optimizer update. -/
theorem val_step_frame_witness :
    (val_step envId 0 0 [3, 5]).events = [] ∧
    (val_step envId 0 0 [3, 5]).avgLoss = (train_step envId 0 0 [3, 5]).avgLoss :=
  ⟨(val_step_frame envId 0 0 [3, 5]).2.2.1,
   ((val_step_frame envId 0 0 [3, 5]).2.2.2.2.2.2 (fun _ _ => rfl)).1⟩

/-! ## Training orchestrator (`train`, train.py lines 128-173) -/

/-- The four scalars one epoch produces: `avg_train_loss, avg_train_f1`
from `train_step` and `avg_val_loss, avg_val_f1` from `val_step`.  The
orchestrator's control flow depends only on these, so an epoch is
abstracted to them. -/
structure EpochData where
  train_loss : ℚ
  train_f1 : ℚ
  val_loss : ℚ
  val_f1 : ℚ
deriving DecidableEq

/-- The four append-only metric lists of the run: `train_losses`,
`train_fscores`, `val_losses`, `val_fscores`. -/
structure MetricLists where
  train_losses : List ℚ
  train_fscores : List ℚ
  val_losses : List ℚ
  val_fscores : List ℚ
deriving DecidableEq

/-- Observable actions of the orchestrator, in the order they happen:
running the train step, running the validation step, updating the stopping
state (lines 157-159), appending the four epoch metrics (lines 164-167),
the per-epoch `wandb.log` (lines 169-171), and the two ways the run ends:
the early `return None` (line 162) and falling out of the epoch loop. -/
inductive Ev
  | trainStep
  | valStep
  | updateStop
  | appendMetrics
  | logMetrics
  | stop
  | complete
deriving DecidableEq

/-- Terminal state of a run: stopped early or completed the epoch budget. -/
inductive Outcome
  | stopped
  | completed
deriving DecidableEq

/-- What a run leaves behind: the metric lists, the event trace, the
terminal state, and the number of epochs executed. -/
structure RunResult where
  metrics : MetricLists
  trace : List Ev
  outcome : Outcome
  nEpochs : ℕ
deriving DecidableEq

/-- The stopping-state update of lines 157-158: increment the
no-improvement count exactly when the current validation F1 is strictly
below the previous one. -/
def updateNoImprov (prev val_f1 : ℚ) (cnt : ℕ) : ℕ :=
  if val_f1 < prev then cnt + 1 else cnt

/-- The four appends of lines 164-167. -/
def appendEpoch (ms : MetricLists) (e : EpochData) : MetricLists :=
  ⟨ms.train_losses ++ [e.train_loss], ms.train_fscores ++ [e.train_f1],
   ms.val_losses ++ [e.val_loss], ms.val_fscores ++ [e.val_f1]⟩

/-- The events of one fully executed (non-stopping) epoch, in program order. -/
def epochBlock : List Ev :=
  [Ev.trainStep, Ev.valStep, Ev.updateStop, Ev.appendMetrics, Ev.logMetrics]

/-- The events of the epoch that triggers the early return: the stop check
fires right after the stopping-state update, before any append or log. -/
def stopBlock : List Ev := [Ev.trainStep, Ev.valStep, Ev.updateStop, Ev.stop]

/-- The concatenated event blocks of `n` fully executed epochs. -/
def epochBlocks (n : ℕ) : List Ev := (List.replicate n epochBlock).flatten

/-- The epoch loop of `train` (lines 144-173), one recursive call per epoch.
Each epoch: run the steps (yielding this epoch's `EpochData`), update the
stopping state, and — exactly as in the source — first test
`no_improv_epochs >= patience` and `return None` (no append, no log) when
it holds, otherwise append the four metrics, log them, and continue. -/
def trainGo (patience : ℕ) (prev : ℚ) (cnt : ℕ) (ms : MetricLists) :
    List EpochData → RunResult
  | [] => ⟨ms, [Ev.complete], Outcome.completed, 0⟩
  | e :: rest =>
    if patience ≤ updateNoImprov prev e.val_f1 cnt then
      ⟨ms, [Ev.trainStep, Ev.valStep, Ev.updateStop, Ev.stop], Outcome.stopped, 1⟩
    else
      let r := trainGo patience e.val_f1 (updateNoImprov prev e.val_f1 cnt)
        (appendEpoch ms e) rest
      ⟨r.metrics, epochBlock ++ r.trace, r.outcome, r.nEpochs + 1⟩

/-- Embedding of `train`: empty metric lists, `prev_val_score = 0`,
`no_improv_epochs = 0` (lines 139-142), then the epoch loop.  The epoch
list abstracts the `range(epochs)` budget together with the four scalars
each epoch's steps produce. -/
def train (patience : ℕ) (epochs : List EpochData) : RunResult :=
  trainGo patience 0 0 ⟨[], [], [], []⟩ epochs

/-- The metric lists obtained by recording exactly the given epochs. -/
def metricsOf (l : List EpochData) : MetricLists :=
  ⟨l.map EpochData.train_loss, l.map EpochData.train_f1,
   l.map EpochData.val_loss, l.map EpochData.val_f1⟩

/-- The no-improvement counter after folding the stopping-state update over
a list of validation F1 scores, starting from a previous score and count. -/
def noImprovAfter : ℚ → ℕ → List ℚ → ℕ
  | _, cnt, [] => cnt
  | prev, cnt, v :: vs => noImprovAfter v (updateNoImprov prev v cnt) vs

/-- The no-improvement counter after the first `k` epochs of a run
(previous score initialized to 0, count to 0). -/
def cntAfterK (es : List EpochData) (k : ℕ) : ℕ :=
  noImprovAfter 0 0 ((es.map EpochData.val_f1).take k)

theorem epochBlocks_succ (n : ℕ) :
    epochBlocks (n + 1) = epochBlock ++ epochBlocks n := by
  simp [epochBlocks, List.replicate_succ]

theorem foldl_appendEpoch (l : List EpochData) (ms : MetricLists) :
    l.foldl appendEpoch ms =
      ⟨ms.train_losses ++ (metricsOf l).train_losses,
       ms.train_fscores ++ (metricsOf l).train_fscores,
       ms.val_losses ++ (metricsOf l).val_losses,
       ms.val_fscores ++ (metricsOf l).val_fscores⟩ := by
  induction l generalizing ms with
  | nil => simp [metricsOf]
  | cons e l ih =>
    rw [List.foldl_cons, ih (appendEpoch ms e)]
    simp [appendEpoch, metricsOf]

theorem metricsOf_eq_foldl (l : List EpochData) :
    l.foldl appendEpoch ⟨[], [], [], []⟩ = metricsOf l := by
  rw [foldl_appendEpoch]
  simp

theorem trainGo_spec (patience : ℕ) (es : List EpochData) :
    ∀ (prev : ℚ) (cnt : ℕ) (ms : MetricLists),
    ((trainGo patience prev cnt ms es).outcome = Outcome.stopped →
      1 ≤ (trainGo patience prev cnt ms es).nEpochs ∧
      (trainGo patience prev cnt ms es).nEpochs ≤ es.length ∧
      patience ≤ noImprovAfter prev cnt
        ((es.map EpochData.val_f1).take (trainGo patience prev cnt ms es).nEpochs) ∧
      (∀ k, 1 ≤ k → k < (trainGo patience prev cnt ms es).nEpochs →
        noImprovAfter prev cnt ((es.map EpochData.val_f1).take k) < patience) ∧
      (trainGo patience prev cnt ms es).metrics =
        (es.take ((trainGo patience prev cnt ms es).nEpochs - 1)).foldl appendEpoch ms ∧
      (trainGo patience prev cnt ms es).trace =
        epochBlocks ((trainGo patience prev cnt ms es).nEpochs - 1) ++ stopBlock) ∧
    ((trainGo patience prev cnt ms es).outcome = Outcome.completed →
      (trainGo patience prev cnt ms es).nEpochs = es.length ∧
      (∀ k, 1 ≤ k → k ≤ es.length →
        noImprovAfter prev cnt ((es.map EpochData.val_f1).take k) < patience) ∧
      (trainGo patience prev cnt ms es).metrics = es.foldl appendEpoch ms ∧
      (trainGo patience prev cnt ms es).trace = epochBlocks es.length ++ [Ev.complete]) := by
  induction es with
  | nil =>
    intro prev cnt ms
    constructor
    · intro h
      exact absurd h (by simp [trainGo])
    · intro _
      refine ⟨rfl, ?_, rfl, ?_⟩
      · intro k hk1 hk2
        simp at hk2
        omega
      · simp [trainGo, epochBlocks]
  | cons e rest ih =>
    intro prev cnt ms
    by_cases hc : patience ≤ updateNoImprov prev e.val_f1 cnt
    · constructor
      · intro _
        simp only [trainGo, if_pos hc]
        refine ⟨by norm_num, by simp, ?_, ?_, by simp, by simp [epochBlocks, stopBlock]⟩
        · simpa [noImprovAfter] using hc
        · intro k hk1 hk2
          omega
      · intro h
        simp only [trainGo, if_pos hc] at h
        exact absurd h (by simp)
    · have hcnt : updateNoImprov prev e.val_f1 cnt < patience := by omega
      have ih' := ih e.val_f1 (updateNoImprov prev e.val_f1 cnt) (appendEpoch ms e)
      simp only [trainGo, if_neg hc]
      constructor
      · intro h
        obtain ⟨h1, h2, h3, h4, h5, h6⟩ := ih'.1 h
        obtain ⟨m, hm⟩ : ∃ m, (trainGo patience e.val_f1 (updateNoImprov prev e.val_f1 cnt)
            (appendEpoch ms e) rest).nEpochs = m + 1 :=
          ⟨(trainGo patience e.val_f1 (updateNoImprov prev e.val_f1 cnt)
            (appendEpoch ms e) rest).nEpochs - 1, by omega⟩
        rw [hm] at h2 h3 h4 h5 h6 ⊢
        refine ⟨by omega, by simp; omega, ?_, ?_, ?_, ?_⟩
        · simpa [noImprovAfter] using h3
        · intro k hk1 hk2
          obtain ⟨k', rfl⟩ : ∃ k', k = k' + 1 := ⟨k - 1, by omega⟩
          simp only [List.map_cons, List.take_succ_cons, noImprovAfter]
          rcases Nat.eq_zero_or_pos k' with rfl | hk'
          · simpa [noImprovAfter] using hcnt
          · exact h4 k' hk' (by omega)
        · simpa [List.take_succ_cons] using h5
        · rw [h6]
          simp only [Nat.add_sub_cancel] at h5 h6 ⊢
          rw [epochBlocks_succ, List.append_assoc]
      · intro h
        obtain ⟨h1, h2, h3, h4⟩ := ih'.2 h
        refine ⟨by simp [h1], ?_, by simpa using h3, ?_⟩
        · intro k hk1 hk2
          obtain ⟨k', rfl⟩ : ∃ k', k = k' + 1 := ⟨k - 1, by omega⟩
          simp only [List.map_cons, List.take_succ_cons, noImprovAfter]
          rcases Nat.eq_zero_or_pos k' with rfl | hk'
          · simpa [noImprovAfter] using hcnt
          · exact h2 k' hk' (by simp at hk2; omega)
        · rw [h4]
          simp only [List.length_cons]
          rw [epochBlocks_succ, List.append_assoc]

/-- First epoch of the spec's concrete 2-epoch run: validation F1 `0.5`. -/
def epochA : EpochData := ⟨1, 1, 1, 1 / 2⟩

/-- Second epoch of the spec's concrete 2-epoch run: validation F1 `0.3`. -/
def epochB : EpochData := ⟨1, 1, 1, 3 / 10⟩

theorem train_two_epochs_eval :
    train 1 [epochA, epochB] =
      ⟨metricsOf [epochA], epochBlock ++ stopBlock, Outcome.stopped, 2⟩ := by
  have h1 : updateNoImprov 0 epochA.val_f1 0 = 0 := by
    norm_num [updateNoImprov, epochA]
  have h2 : updateNoImprov epochA.val_f1 epochB.val_f1 0 = 1 := by
    norm_num [updateNoImprov, epochA, epochB]
  simp [train, trainGo, h1, h2, metricsOf, appendEpoch, epochBlock, stopBlock]

/-- C1: the no-improvement counter increments exactly once per epoch in
which the current validation F1 is strictly below the previous epoch's and
never decrements; a run stops early exactly at the first epoch at which the
counter reaches the patience threshold, and otherwise completes the whole
budget with the counter below patience throughout; and on the concrete
2-epoch run with validation F1 sequence `[1/2, 3/10]` and `patience = 1`
the loop halts after epoch 2 having recorded only epoch 1's metrics. -/
theorem early_stop_spec :
    (∀ prev v cnt, updateNoImprov prev v cnt = cnt + (if v < prev then 1 else 0) ∧
      cnt ≤ updateNoImprov prev v cnt) ∧
    (∀ patience es,
      ((train patience es).outcome = Outcome.stopped →
        1 ≤ (train patience es).nEpochs ∧
        (train patience es).nEpochs ≤ es.length ∧
        patience ≤ cntAfterK es (train patience es).nEpochs ∧
        ∀ k, 1 ≤ k → k < (train patience es).nEpochs → cntAfterK es k < patience) ∧
      ((train patience es).outcome = Outcome.completed →
        (train patience es).nEpochs = es.length ∧
        ∀ k, 1 ≤ k → k ≤ es.length → cntAfterK es k < patience)) ∧
    ((train 1 [epochA, epochB]).outcome = Outcome.stopped ∧
     (train 1 [epochA, epochB]).nEpochs = 2 ∧
     (train 1 [epochA, epochB]).metrics = metricsOf [epochA]) := by
  refine ⟨?_, ?_, ?_⟩
  · intro prev v cnt
    by_cases h : v < prev <;> simp [updateNoImprov, h]
  · intro patience es
    have hs := trainGo_spec patience es 0 0 ⟨[], [], [], []⟩
    exact ⟨fun h => ⟨(hs.1 h).1, (hs.1 h).2.1, (hs.1 h).2.2.1, (hs.1 h).2.2.2.1⟩,
           fun h => ⟨(hs.2 h).1, (hs.2 h).2.1⟩⟩
  · rw [train_two_epochs_eval]
    exact ⟨rfl, rfl, rfl⟩

/-- Witness for `early_stop_spec`: on the concrete 2-epoch run the theorem's
stopped case applies, and the counter indeed reached the patience threshold
at the halting epoch. -/
theorem early_stop_spec_witness :
    (train 1 [epochA, epochB]).outcome = Outcome.stopped ∧
    1 ≤ cntAfterK [epochA, epochB] (train 1 [epochA, epochB]).nEpochs :=
  ⟨early_stop_spec.2.2.1,
   ((early_stop_spec.2.1 1 [epochA, epochB]).1 early_stop_spec.2.2.1).2.2.1⟩

/-- C6 counterexample: on the 2-epoch run with `patience = 1` the stop
fires in epoch 2 directly after the stopping-state update: the run returns
with only epoch 1's metrics recorded, and the part of the trace after the
first full epoch contains no append and no log event — so the stopping
epoch's metrics are neither appended nor logged, contrary to the claimed
order. -/
theorem stop_epoch_skips_metrics :
    (train 1 [epochA, epochB]).outcome = Outcome.stopped ∧
    (train 1 [epochA, epochB]).nEpochs = 2 ∧
    (train 1 [epochA, epochB]).metrics ≠ metricsOf [epochA, epochB] ∧
    (train 1 [epochA, epochB]).metrics.val_fscores = [epochA.val_f1] ∧
    Ev.appendMetrics ∉ (train 1 [epochA, epochB]).trace.drop 5 ∧
    Ev.logMetrics ∉ (train 1 [epochA, epochB]).trace.drop 5 := by
  rw [train_two_epochs_eval]
  refine ⟨rfl, rfl, ?_, ?_, ?_, ?_⟩
  · simp [metricsOf]
  · simp [metricsOf]
  · simp [epochBlock, stopBlock]
  · simp [epochBlock, stopBlock]

/-- C6 amended: in every executed epoch the steps occur in the order train
step, validation step, stopping-state update; then, if the no-improvement
count has reached patience, the run immediately transitions to the terminal
stopped state — without appending or logging that epoch's metrics —
otherwise the four epoch metrics are appended, then logged, and the run
continues, completing (with every executed epoch's metrics appended and
logged) when the epoch budget is exhausted. -/
theorem train_epoch_order (patience : ℕ) (es : List EpochData) :
    ((train patience es).outcome = Outcome.stopped →
      1 ≤ (train patience es).nEpochs ∧
      (train patience es).nEpochs ≤ es.length ∧
      (train patience es).metrics = metricsOf (es.take ((train patience es).nEpochs - 1)) ∧
      (train patience es).trace =
        epochBlocks ((train patience es).nEpochs - 1) ++ stopBlock) ∧
    ((train patience es).outcome = Outcome.completed →
      (train patience es).nEpochs = es.length ∧
      (train patience es).metrics = metricsOf es ∧
      (train patience es).trace = epochBlocks es.length ++ [Ev.complete]) := by
  have hs := trainGo_spec patience es 0 0 ⟨[], [], [], []⟩
  constructor
  · intro h
    obtain ⟨h1, h2, _, _, h5, h6⟩ := hs.1 h
    rw [metricsOf_eq_foldl] at h5
    exact ⟨h1, h2, h5, h6⟩
  · intro h
    obtain ⟨h1, _, h3, h4⟩ := hs.2 h
    rw [metricsOf_eq_foldl] at h3
    exact ⟨h1, h3, h4⟩

/-- Witness for `train_epoch_order`: the stopped case applies on the
concrete 2-epoch run, giving its trace shape. -/
theorem train_epoch_order_witness :
    (train 1 [epochA, epochB]).outcome = Outcome.stopped ∧
    (train 1 [epochA, epochB]).trace =
      epochBlocks ((train 1 [epochA, epochB]).nEpochs - 1) ++ stopBlock :=
  ⟨by rw [train_two_epochs_eval],
   ((train_epoch_order 1 [epochA, epochB]).1 (by rw [train_two_epochs_eval])).2.2.2⟩

theorem f1Class_nonneg (gold pred : List ℕ) (c : ℕ) : 0 ≤ f1Class gold pred c := by
  unfold f1Class
  by_cases hd : countEq pred c + countEq gold c = 0
  · simp [hd]
  · simp only [hd, if_false]
    positivity

theorem weightedF1_nonneg (gold pred : List ℕ) : 0 ≤ weightedF1 gold pred := by
  unfold weightedF1
  split
  · exact le_refl 0
  · apply div_nonneg
    · apply Finset.sum_nonneg
      intro c _
      exact mul_nonneg (by positivity) (f1Class_nonneg gold pred c)
    · positivity

/-- C10: the previous-validation-score state starts at 0; a weighted F1
score is always nonnegative, so the first epoch's decrease test can never
fire: the no-improvement counter is still 0 after epoch 1 and, for every
patience ≥ 1, the run always fully executes epoch 1 — appending and
logging its metrics — before any early stop can occur. -/
theorem first_epoch_never_stops :
    (∀ gold pred, 0 ≤ weightedF1 gold pred) ∧
    (∀ patience es, train patience es = trainGo patience 0 0 ⟨[], [], [], []⟩ es) ∧
    (∀ (patience : ℕ) (e : EpochData) (rest : List EpochData),
      1 ≤ patience → 0 ≤ e.val_f1 →
      cntAfterK (e :: rest) 1 = 0 ∧
      1 ≤ (train patience (e :: rest)).nEpochs ∧
      (train patience (e :: rest)).metrics.val_fscores.take 1 = [e.val_f1] ∧
      (train patience (e :: rest)).trace.take 5 = epochBlock) := by
  refine ⟨weightedF1_nonneg, fun _ _ => rfl, ?_⟩
  intro patience e rest hp h0
  have hcnt1 : updateNoImprov 0 e.val_f1 0 = 0 := by
    unfold updateNoImprov
    rw [if_neg (not_lt.mpr h0)]
  have hstep : train patience (e :: rest) =
      ⟨(trainGo patience e.val_f1 0 (appendEpoch ⟨[], [], [], []⟩ e) rest).metrics,
       epochBlock ++ (trainGo patience e.val_f1 0 (appendEpoch ⟨[], [], [], []⟩ e) rest).trace,
       (trainGo patience e.val_f1 0 (appendEpoch ⟨[], [], [], []⟩ e) rest).outcome,
       (trainGo patience e.val_f1 0 (appendEpoch ⟨[], [], [], []⟩ e) rest).nEpochs + 1⟩ := by
    show trainGo patience 0 0 ⟨[], [], [], []⟩ (e :: rest) = _
    simp only [trainGo, hcnt1]
    rw [if_neg (by omega : ¬ patience ≤ 0)]
  have hms : ∀ l : List EpochData,
      (l.foldl appendEpoch (appendEpoch ⟨[], [], [], []⟩ e)).val_fscores =
        e.val_f1 :: (metricsOf l).val_fscores := by
    intro l
    rw [foldl_appendEpoch]
    simp [appendEpoch]
  have hv : ∃ t, (trainGo patience e.val_f1 0
      (appendEpoch ⟨[], [], [], []⟩ e) rest).metrics.val_fscores = e.val_f1 :: t := by
    have hs := trainGo_spec patience rest e.val_f1 0 (appendEpoch ⟨[], [], [], []⟩ e)
    cases ho : (trainGo patience e.val_f1 0 (appendEpoch ⟨[], [], [], []⟩ e) rest).outcome
    · obtain ⟨_, _, _, _, h5, _⟩ := hs.1 ho
      exact ⟨_, by rw [h5, hms]⟩
    · obtain ⟨_, _, h3, _⟩ := hs.2 ho
      exact ⟨_, by rw [h3, hms]⟩
  obtain ⟨t, ht⟩ := hv
  refine ⟨?_, ?_, ?_, ?_⟩
  · simp [cntAfterK, noImprovAfter, hcnt1]
  · rw [hstep]
    simp
  · rw [hstep]
    simp only [ht]
    simp
  · rw [hstep]
    simp only
    rw [show (5 : ℕ) = epochBlock.length from rfl, List.take_left]

/-- Witness for `first_epoch_never_stops` at `patience = 1` and a first
epoch with validation F1 `1/2 ≥ 0`. -/
theorem first_epoch_never_stops_witness :
    cntAfterK [epochA] 1 = 0 ∧ (train 1 [epochA]).trace.take 5 = epochBlock :=
  ⟨(first_epoch_never_stops.2.2 1 epochA [] (le_refl 1) (by norm_num [epochA])).1,
   (first_epoch_never_stops.2.2 1 epochA [] (le_refl 1) (by norm_num [epochA])).2.2.2⟩

end MMERC
